import Mathlib

/-!
Shallow embedding of `src/process_events.py` (the event reconciliation
pipeline): JSON values, the Python-semantics primitives the script relies
on (truthiness, membership tests, indexing, `dict.get`, iteration, string
methods), the normalizer `clean_data`, the store construction and merge
loop of `main`, `load_from_file`, and `create_ics_file`.

Conventions:
- JSON numbers are modelled as integers (no claim depends on float values).
- `json.loads` is an external library routine; it is modelled as an
  abstract parameter `parse : String → Option JValue` (`none` = decode
  error).  Likewise the `ics` library's date parsing inside
  `create_ics_file` is an abstract `parseDate : JValue → Option String`.
- Python statements that can raise are embedded in `Except String`;
  an `.error` value corresponds to an uncaught Python exception.
-/

/-- A JSON value, as produced by `json.loads` / `response.json()`.
Numbers are modelled as integers. -/
inductive JValue where
  | null
  | bool (b : Bool)
  | num (n : Int)
  | str (s : String)
  | arr (elems : List JValue)
  | obj (fields : List (String × JValue))

mutual

def JValue.decEq : (a b : JValue) → Decidable (a = b)
  | .null, .null => isTrue rfl
  | .bool a, .bool b =>
    if h : a = b then isTrue (by rw [h])
    else isFalse fun hh => by cases hh; exact h rfl
  | .num a, .num b =>
    if h : a = b then isTrue (by rw [h])
    else isFalse fun hh => by cases hh; exact h rfl
  | .str a, .str b =>
    if h : a = b then isTrue (by rw [h])
    else isFalse fun hh => by cases hh; exact h rfl
  | .arr a, .arr b =>
    match JValue.decEqList a b with
    | isTrue h => isTrue (by rw [h])
    | isFalse h => isFalse fun hh => by cases hh; exact h rfl
  | .obj a, .obj b =>
    match JValue.decEqKV a b with
    | isTrue h => isTrue (by rw [h])
    | isFalse h => isFalse fun hh => by cases hh; exact h rfl
  | .null, .bool _ => isFalse fun h => JValue.noConfusion h
  | .null, .num _ => isFalse fun h => JValue.noConfusion h
  | .null, .str _ => isFalse fun h => JValue.noConfusion h
  | .null, .arr _ => isFalse fun h => JValue.noConfusion h
  | .null, .obj _ => isFalse fun h => JValue.noConfusion h
  | .bool _, .null => isFalse fun h => JValue.noConfusion h
  | .bool _, .num _ => isFalse fun h => JValue.noConfusion h
  | .bool _, .str _ => isFalse fun h => JValue.noConfusion h
  | .bool _, .arr _ => isFalse fun h => JValue.noConfusion h
  | .bool _, .obj _ => isFalse fun h => JValue.noConfusion h
  | .num _, .null => isFalse fun h => JValue.noConfusion h
  | .num _, .bool _ => isFalse fun h => JValue.noConfusion h
  | .num _, .str _ => isFalse fun h => JValue.noConfusion h
  | .num _, .arr _ => isFalse fun h => JValue.noConfusion h
  | .num _, .obj _ => isFalse fun h => JValue.noConfusion h
  | .str _, .null => isFalse fun h => JValue.noConfusion h
  | .str _, .bool _ => isFalse fun h => JValue.noConfusion h
  | .str _, .num _ => isFalse fun h => JValue.noConfusion h
  | .str _, .arr _ => isFalse fun h => JValue.noConfusion h
  | .str _, .obj _ => isFalse fun h => JValue.noConfusion h
  | .arr _, .null => isFalse fun h => JValue.noConfusion h
  | .arr _, .bool _ => isFalse fun h => JValue.noConfusion h
  | .arr _, .num _ => isFalse fun h => JValue.noConfusion h
  | .arr _, .str _ => isFalse fun h => JValue.noConfusion h
  | .arr _, .obj _ => isFalse fun h => JValue.noConfusion h
  | .obj _, .null => isFalse fun h => JValue.noConfusion h
  | .obj _, .bool _ => isFalse fun h => JValue.noConfusion h
  | .obj _, .num _ => isFalse fun h => JValue.noConfusion h
  | .obj _, .str _ => isFalse fun h => JValue.noConfusion h
  | .obj _, .arr _ => isFalse fun h => JValue.noConfusion h

def JValue.decEqList : (xs ys : List JValue) → Decidable (xs = ys)
  | [], [] => isTrue rfl
  | [], _ :: _ => isFalse fun h => List.noConfusion h
  | _ :: _, [] => isFalse fun h => List.noConfusion h
  | x :: xs, y :: ys =>
    match JValue.decEq x y with
    | isFalse h => isFalse fun hh => by cases hh; exact h rfl
    | isTrue h1 =>
      match JValue.decEqList xs ys with
      | isTrue h2 => isTrue (by rw [h1, h2])
      | isFalse h2 => isFalse fun hh => by cases hh; exact h2 rfl

def JValue.decEqKV : (ps qs : List (String × JValue)) → Decidable (ps = qs)
  | [], [] => isTrue rfl
  | [], _ :: _ => isFalse fun h => List.noConfusion h
  | _ :: _, [] => isFalse fun h => List.noConfusion h
  | (k1, v1) :: ps, (k2, v2) :: qs =>
    if hk : k1 = k2 then
      (match JValue.decEq v1 v2 with
      | isFalse h => isFalse fun hh => by cases hh; exact h rfl
      | isTrue hv =>
        match JValue.decEqKV ps qs with
        | isTrue h2 => isTrue (by rw [hk, hv, h2])
        | isFalse h2 => isFalse fun hh => by cases hh; exact h2 rfl)
    else isFalse fun hh => by cases hh; exact hk rfl

end

instance : DecidableEq JValue := JValue.decEq

/-- Python truthiness (`bool(v)`) for JSON values: `None`, `False`, `0`,
`""`, `[]` and `{}` are falsy, everything else truthy. -/
def pyTruthy : JValue → Bool
  | .null => false
  | .bool b => b
  | .num n => decide (n ≠ 0)
  | .str s => decide (s ≠ "")
  | .arr xs => decide (xs ≠ [])
  | .obj kvs => decide (kvs ≠ [])

/-- First-match lookup in the key/value list of a JSON object
(the model of a Python dict, whose keys are unique). -/
def kvLookup (kvs : List (String × JValue)) (k : String) : Option JValue :=
  (kvs.find? (fun p => p.1 = k)).map (fun p => p.2)

/-- The Python membership test `k in v` for a string `k`: key test on a
dict, substring test on a string, element test on a list; raises
`TypeError` on `None`, booleans and numbers. -/
def pyContains (v : JValue) (k : String) : Except String Bool :=
  match v with
  | .obj kvs => .ok (kvs.any (fun p => p.1 = k))
  | .str s => .ok (decide (k.toList <:+: s.toList))
  | .arr xs => .ok (xs.any (fun x => x = JValue.str k))
  | _ => .error "TypeError: argument is not iterable"

/-- The Python indexing expression `v[k]` for a string key `k`: dict
lookup (`KeyError` when absent); `TypeError` on every other value. -/
def pyIndex (v : JValue) (k : String) : Except String JValue :=
  match v with
  | .obj kvs =>
    match kvLookup kvs k with
    | some x => .ok x
    | none => .error "KeyError"
  | _ => .error "TypeError: value is not subscriptable by a string"

/-- The Python method call `v.get(k, dflt)`: only dicts have `.get`;
any other receiver raises `AttributeError`. -/
def pyGet (v : JValue) (k : String) (dflt : JValue) : Except String JValue :=
  match v with
  | .obj kvs => .ok ((kvLookup kvs k).getD dflt)
  | _ => .error "AttributeError: value has no attribute get"

/-- Python iteration `for x in v`: a list yields its elements, a string
its characters (as one-character strings), a dict its keys; `None`,
booleans and numbers raise `TypeError`. -/
def pyIter (v : JValue) : Except String (List JValue) :=
  match v with
  | .arr xs => .ok xs
  | .str s => .ok (s.toList.map (fun c => JValue.str (String.singleton c)))
  | .obj kvs => .ok (kvs.map (fun p => JValue.str p.1))
  | _ => .error "TypeError: value is not iterable"

/-- Coerces a value on which a string method (`.replace`, `.strip`) is
called: any non-string receiver raises `AttributeError` (this is what
happens on a JSON `null` title or description). -/
def pyAsString (v : JValue) : Except String String :=
  match v with
  | .str s => .ok s
  | _ => .error "AttributeError: value is not a string"

/-- Python str whitespace (the characters `str.strip()` removes). -/
def isPySpace (c : Char) : Bool :=
  c = ' ' || c = '\t' || c = '\n' || c = '\r' || c = '\x0b' || c = '\x0c'

/-- One fuel-indexed pass of Python `str.replace`: left to right,
non-overlapping; on a match the scan continues after the replaced
segment.  The fuel (the length of the scanned list) makes the recursion
structural; a step always consumes at least one character, so the fuel
never runs out on the call below. -/
def replaceFuel (pat rep : List Char) : Nat → List Char → List Char
  | 0, s => s
  | _ + 1, [] => []
  | fuel + 1, c :: cs =>
    if pat.isPrefixOf (c :: cs) ∧ pat ≠ [] then
      rep ++ replaceFuel pat rep fuel (List.drop (pat.length - 1) cs)
    else c :: replaceFuel pat rep fuel cs

/-- Python `s.replace(pat, rep)` for a non-empty pattern (the only use
in the source is the literal `"(Coming Soon) "`). -/
def pyReplace (s pat rep : String) : String :=
  (replaceFuel pat.toList rep.toList s.toList.length s.toList).asString

/-- Python `s.strip()`: removes leading and trailing whitespace. -/
def pyStrip (s : String) : String :=
  (((s.toList.dropWhile isPySpace).reverse.dropWhile isPySpace).reverse).asString

/-- A cleaned event: the Python dict built by `clean_data` with keys
`id`, `summary`, `description`, `url`, `begin`, `end`.  `summary` and
`description` are always strings there (results of `.strip()`); the
other values are arbitrary JSON values. -/
structure CleanedEvent where
  id : JValue
  summary : String
  description : String
  url : JValue
  begin : JValue
  ende : JValue

instance : DecidableEq CleanedEvent := fun a b => by
  cases a; cases b
  exact decidable_of_iff _
    (iff_of_eq (CleanedEvent.mk.injEq _ _ _ _ _ _ _ _ _ _ _ _)).symm

/-- The `try: json.loads(field_value_str) except (JSONDecodeError,
TypeError): field_value_str` step of `clean_data`: a string is decoded
with `parse`, falling back to the raw value on decode failure; any
non-string raises `TypeError`, which the code also catches. -/
def decodeFieldValue (parse : String → Option JValue) (v : JValue) : JValue :=
  match v with
  | .str s => (parse s).getD (JValue.str s)
  | _ => v

/-- The `for field in post.fields` loop of `clean_data`, threading the
`(begin, end)` slots of the cleaned event.  A field whose `value` is
`None` is skipped; a `start_date` / `end_date` key overwrites the
corresponding slot with the decoded value. -/
def processFields (parse : String → Option JValue) :
    List JValue → JValue × JValue → Except String (JValue × JValue)
  | [], acc => .ok acc
  | f :: fs, acc => do
    let key ← pyGet f "key" JValue.null
    let value ← pyGet f "value" JValue.null
    if value = JValue.null then processFields parse fs acc
    else
      let decoded := decodeFieldValue parse value
      if key = JValue.str "start_date" then processFields parse fs (decoded, acc.2)
      else if key = JValue.str "end_date" then processFields parse fs (acc.1, decoded)
      else processFields parse fs acc

/-- The body of the `for post in nodes` loop of `clean_data`: builds the
cleaned-event dict, runs the fields loop, and applies the final
`if cleaned_event.begin` filter.  Returns `some event` when the event is
appended to the result, `none` when it is filtered out, `.error` when
the Python code would raise. -/
def processPost (parse : String → Option JValue) (post : JValue) :
    Except String (Option CleanedEvent) := do
  let idv ← pyGet post "id" JValue.null
  let titlev ← pyGet post "title" (JValue.str "No Title")
  let titles ← pyAsString titlev
  let summary := pyStrip (pyReplace titles "(Coming Soon) " "")
  let descv ← pyGet post "description" (JValue.str "")
  let descs ← pyAsString descv
  let description := pyStrip descs
  let urlv ← pyGet post "url" (JValue.str "")
  let hasFields ← pyContains post "fields"
  let slots ←
    if hasFields then do
      let fieldsv ← pyIndex post "fields"
      if pyTruthy fieldsv then do
        let fields ← pyIter fieldsv
        processFields parse fields (JValue.null, JValue.null)
      else .ok (JValue.null, JValue.null)
    else .ok (JValue.null, JValue.null)
  let ev : CleanedEvent :=
    { id := idv, summary := summary, description := description,
      url := urlv, begin := slots.1, ende := slots.2 }
  if pyTruthy ev.begin then .ok (some ev) else .ok none

/-- The `for post in nodes` loop of `clean_data`, accumulating the
emitted events in order. -/
def processNodes (parse : String → Option JValue) :
    List JValue → List CleanedEvent → Except String (List CleanedEvent)
  | [], acc => .ok acc
  | post :: rest, acc => do
    match ← processPost parse post with
    | some e => processNodes parse rest (acc ++ [e])
    | none => processNodes parse rest acc

/-- The guard of `clean_data`, evaluated exactly as the Python
short-circuiting condition `not raw_data or 'data' not in raw_data or
'posts' not in raw_data.data or 'nodes' not in raw_data.data.posts`
does: membership tests and indexing raise on ill-typed operands. -/
def shapeBad (raw : JValue) : Except String Bool := do
  if !pyTruthy raw then .ok true
  else do
    let c1 ← pyContains raw "data"
    if !c1 then .ok true
    else do
      let dv ← pyIndex raw "data"
      let c2 ← pyContains dv "posts"
      if !c2 then .ok true
      else do
        let pv ← pyIndex dv "posts"
        let c3 ← pyContains pv "nodes"
        .ok !c3

/-- `clean_data(raw_data)` of `src/process_events.py`: the defensive
shape check, then the per-post loop over `raw_data.data.posts.nodes`. -/
def cleanData (parse : String → Option JValue) (raw : JValue) :
    Except String (List CleanedEvent) := do
  if ← shapeBad raw then .ok []
  else do
    let dv ← pyIndex raw "data"
    let pv ← pyIndex dv "posts"
    let nv ← pyIndex pv "nodes"
    let nodes ← pyIter nv
    processNodes parse nodes []

/-- The in-memory store: a Python dict from event ids to cleaned events,
modelled as an insertion-ordered association list (later inserts of an
existing key update in place, new keys are appended — exactly the
Python dict behaviour). -/
abbrev Store := List (JValue × CleanedEvent)

/-- The keys of the store, in dict order. -/
def keysOf (d : Store) : List JValue := d.map Prod.fst

/-- The Python test `event_id in events_dict`. -/
def hasKey (d : Store) (k : JValue) : Bool := d.any (fun p => p.1 = k)

/-- Dict lookup `events_dict[k]` (first matching entry). -/
def lookupStore (d : Store) (k : JValue) : Option CleanedEvent :=
  (d.find? (fun p => p.1 = k)).map (fun p => p.2)

/-- The Python dict assignment `events_dict[k] = v`: updates the entry
in place when the key is present, appends otherwise. -/
def dictInsert (d : Store) (k : JValue) (v : CleanedEvent) : Store :=
  if hasKey d k then d.map (fun p => if p.1 = k then (k, v) else p)
  else d ++ [(k, v)]

/-- One step of the merge loop in `main` on the store alone: an event
with falsy `id` is skipped (`if not event_id: continue`), otherwise it
is upserted under its id. -/
def storeStep (d : Store) (e : CleanedEvent) : Store :=
  if pyTruthy e.id then dictInsert d e.id e else d

/-- The dict comprehension of `main`,
`(event.id : event) for event in existing_events_list if event.get(id)`:
left-to-right insertion of the events with truthy id. -/
def buildDict (loaded : List CleanedEvent) : Store := loaded.foldl storeStep []

/-- One step of the merge loop of `main`, also threading the
`new_count` and `updated_count` counters. -/
def mergeStep (acc : Store × Nat × Nat) (e : CleanedEvent) : Store × Nat × Nat :=
  if pyTruthy e.id then
    if hasKey acc.1 e.id then (dictInsert acc.1 e.id e, acc.2.1, acc.2.2 + 1)
    else (dictInsert acc.1 e.id e, acc.2.1 + 1, acc.2.2)
  else acc

/-- The merge loop of `main` (steps 5 of the script): folds the newly
cleaned events into the existing dict, returning the merged dict, the
`new_count` and the `updated_count` of that run. -/
def mergeRun (d : Store) (l : List CleanedEvent) : Store × Nat × Nat :=
  l.foldl mergeStep (d, 0, 0)

/-- `load_from_file(filename)`: the file state is `none` when the file
does not exist and `some content` otherwise; `parse` models
`json.loads` (`none` = `JSONDecodeError`).  A missing file, an empty
file, and unparsable content all yield the empty list; the function
never raises. -/
def loadFromFile (parse : String → Option JValue) (file : Option String) : JValue :=
  match file with
  | none => JValue.arr []
  | some content =>
    if content = "" then JValue.arr []
    else
      match parse content with
      | some v => v
      | none => JValue.arr []

/-- A rendered calendar entry, as assembled by the loop body of
`create_ics_file`: the `end` property is present only when the source
event's `end` is truthy, the `url` property only when `url` is truthy. -/
structure IcsEvent where
  uid : JValue
  name : String
  begin : String
  ende : Option String
  description : String
  url : Option JValue

/-- The `try` body of `create_ics_file` for one event.  The fallible
part — the `ics` library parsing the `begin`/`end` values — is the
abstract `parseDate`; `none` models the exception that makes the code
log and skip this single event. -/
def renderEvent (parseDate : JValue → Option String) (e : CleanedEvent) :
    Option IcsEvent := do
  let b ← parseDate e.begin
  let en ←
    if pyTruthy e.ende then (parseDate e.ende).map Option.some
    else some none
  some { uid := e.id, name := e.summary, begin := b, ende := en,
         description := e.description,
         url := if pyTruthy e.url then some e.url else none }

/-- `create_ics_file(events, filename)`: renders each event, skipping
the ones whose rendering raises, and returns the written calendar
content — `none` when `cal.events` ended up empty, in which case the
code returns before opening the output file. -/
def createIcsFile (parseDate : JValue → Option String)
    (events : List CleanedEvent) : Option (List IcsEvent) :=
  let cal := events.foldl
    (fun acc e =>
      match renderEvent parseDate e with
      | some ev => acc ++ [ev]
      | none => acc) []
  if cal.isEmpty then none else some cal

/-- The observable file effects of one run of `main`: the content
written to `cleaned_data.json` (as the list of stored events) and the
content written to `events.ics`, each `none` when the file was not
written. -/
structure RunResult where
  storeWrite : Option (List CleanedEvent)
  icsWrite : Option (List IcsEvent)

instance : DecidableEq IcsEvent := fun a b => by
  cases a; cases b
  exact decidable_of_iff _
    (iff_of_eq (IcsEvent.mk.injEq _ _ _ _ _ _ _ _ _ _ _ _)).symm

instance : DecidableEq RunResult := fun a b => by
  cases a; cases b
  exact decidable_of_iff _ (iff_of_eq (RunResult.mk.injEq _ _ _ _)).symm

/-- `main()` from the fetch step on, as a function of the events loaded
from `cleaned_data.json` and of the fetch result (`none` models a
failed request).  When the fetch yields no data (`None` or any falsy
response) the run returns early with no file writes; otherwise the new
events are cleaned, merged into the dict, and both files are produced
(`events.ics` only when the calendar is non-empty). -/
def mainRun (parse : String → Option JValue)
    (parseDate : JValue → Option String)
    (loaded : List CleanedEvent) (raw : Option JValue) :
    Except String RunResult :=
  let events_dict := buildDict loaded
  match raw with
  | none => .ok { storeWrite := none, icsWrite := none }
  | some rv =>
    if !pyTruthy rv then .ok { storeWrite := none, icsWrite := none }
    else do
      let cleaned ← cleanData parse rv
      let merged := (mergeRun events_dict cleaned).1
      let finalList := merged.map Prod.snd
      .ok { storeWrite := some finalList,
            icsWrite := createIcsFile parseDate finalList }

/-- The last event of `l` with truthy id equal to `k` — the one whose
value a chain of dict assignments leaves in place under key `k`. -/
def lastAssign (l : List CleanedEvent) (k : JValue) : Option CleanedEvent :=
  l.reverse.find? (fun e => pyTruthy e.id && decide (e.id = k))

/-- True exactly when an `Except` computation models a raised Python
exception. -/
def isErr {a : Type} (e : Except String a) : Bool :=
  match e with
  | .error _ => true
  | .ok _ => false

/-- A `json.loads` model failing on every string (the concrete inputs
below never feed a decodable field value through it). -/
def parseNone : String → Option JValue := fun _ => none

/-- A date parser for `create_ics_file` that accepts no value: models
the `ics` library rejecting every `begin` value it is given. -/
def dateNone : JValue → Option String := fun _ => none

/-- The values of the `start_date` fields of a raw post record that the
fields loop of `clean_data` can leave in the `begin` slot: the non-null
values of entries of the post's `fields` array whose key is
`start_date`.  (When the fields container is not an array of objects,
the loop raises before emitting anything.) -/
def startValues (post : JValue) : List JValue :=
  match post with
  | .obj kvs =>
    match kvLookup kvs "fields" with
    | some v =>
      if pyTruthy v then
        match v with
        | .arr fs => fs.filterMap (fun f =>
            match f with
            | .obj fkv =>
              if (kvLookup fkv "key").getD JValue.null = JValue.str "start_date"
                  ∧ (kvLookup fkv "value").getD JValue.null ≠ JValue.null then
                some ((kvLookup fkv "value").getD JValue.null)
              else none
            | _ => none)
        | _ => []
      else []
    | none => []
  | _ => []

/-- Whether a JSON value is an object. -/
def isObjB (f : JValue) : Bool :=
  match f with
  | .obj _ => true
  | _ => false

/-- Whether the key `k` is absent from `kvs` or mapped to a string. -/
def strOrAbsent (kvs : List (String × JValue)) (k : String) : Bool :=
  match kvLookup kvs k with
  | none => true
  | some (.str _) => true
  | some _ => false

/-- Whether a JSON value is an array all of whose elements are objects. -/
def arrOfObjs (v : JValue) : Bool :=
  match v with
  | .arr fs => fs.all isObjB
  | _ => false

/-- Whether a `fields` value is safe for the fields loop: either falsy
(the loop is skipped) or an array of objects. -/
def fieldsOk (v : JValue) : Bool := !pyTruthy v || arrOfObjs v

/-- A raw post record that the normalizer can process without raising:
an object whose `title` and `description` are strings when present, and
whose `fields` member, when present and truthy, is an array of objects. -/
def postOk (post : JValue) : Bool :=
  match post with
  | .obj kvs =>
    strOrAbsent kvs "title" && strOrAbsent kvs "description" &&
    (match kvLookup kvs "fields" with
     | none => true
     | some v => fieldsOk v)
  | _ => false

/-- The GraphQL error-shaped payload: a response whose `data` member is
`null` (the standard shape of a GraphQL error response). -/
def payloadDataNull : JValue := .obj [("data", JValue.null)]

/-- A payload that passes the shape check of `clean_data` and whose
single post record carries a present-but-`null` title. -/
def payloadNullTitle : JValue :=
  .obj [("data", .obj [("posts", .obj [("nodes",
    .arr [.obj [("id", .str "x1"), ("title", JValue.null)]])])])]

/-- The raw post record of the end-to-end scenario of the spec. -/
def demoPost : JValue :=
  .obj [("id", .str "x1"), ("title", .str "(Coming Soon) Demo"),
    ("fields", .arr [.obj [("key", .str "start_date"),
      ("value", .str "2024-01-01T10:00:00")]])]

/-- The end-to-end payload containing `demoPost`. -/
def payloadDemo : JValue :=
  .obj [("data", .obj [("posts", .obj [("nodes", .arr [demoPost])])])]

/-- A persisted event with id `"A"` and a `null` begin — the in-memory
form of a store-file entry whose `begin` is `null`, a shape the
persisted-file format of the spec explicitly allows. -/
def evNullBegin : CleanedEvent :=
  { id := .str "A", summary := "old", description := "", url := .str "",
    begin := JValue.null, ende := JValue.null }

/-- An incoming event whose id is the empty string. -/
def evEmptyId : CleanedEvent :=
  { id := .str "", summary := "e", description := "", url := .str "",
    begin := .str "2024-01-01", ende := JValue.null }

/-- A well-formed event with id `"B"`. -/
def evGood : CleanedEvent :=
  { id := .str "B", summary := "good", description := "", url := .str "",
    begin := .str "2024-01-01", ende := JValue.null }

/-- A second event with id `"B"` and a different summary. -/
def evGood2 : CleanedEvent :=
  { id := .str "B", summary := "good2", description := "", url := .str "",
    begin := .str "2024-02-02", ende := JValue.null }

/-- A truthy payload that contains no `data` key: `clean_data` returns
the empty list on it. -/
def payloadNoData : JValue := .obj [("other", .num 1)]

/-- The cleaned event that `clean_data` produces from `demoPost` when
the field value fails JSON decoding and falls back to the raw string. -/
def demoCleaned : CleanedEvent :=
  { id := .str "x1", summary := "Demo", description := "", url := .str "",
    begin := .str "2024-01-01T10:00:00", ende := JValue.null }

theorem lookupStore_isSome (d : Store) (k : JValue) :
    (lookupStore d k).isSome = hasKey d k := by
  simp only [lookupStore, hasKey, Option.isSome_map]
  cases hfd : d.find? (fun p => decide (p.1 = k)) with
  | some p =>
    have hmem := List.mem_of_find?_eq_some hfd
    have hpk := List.find?_some hfd
    have hany : d.any (fun p => decide (p.1 = k)) = true := by
      rw [List.any_eq_true]; exact ⟨p, hmem, hpk⟩
    simp [hany]
  | none =>
    have hall := List.find?_eq_none.mp hfd
    have hany : d.any (fun p => decide (p.1 = k)) = false := by
      rw [Bool.eq_false_iff, Ne, List.any_eq_true]
      rintro ⟨p, hp, hpk⟩
      exact hall p hp hpk
    simp [hany]

theorem lookupStore_eq_none_of_not_mem (d : Store) (k : JValue)
    (h : k ∉ keysOf d) : lookupStore d k = none := by
  have : d.find? (fun p => decide (p.1 = k)) = none := by
    rw [List.find?_eq_none]
    intro p hp
    simp only [decide_eq_true_eq]
    intro hk
    exact h (hk ▸ List.mem_map_of_mem Prod.fst hp)
  simp [lookupStore, this]

theorem hasKey_false_not_mem (d : Store) (k : JValue) (h : hasKey d k = false) :
    k ∉ keysOf d := by
  intro hmem
  obtain ⟨p, hp, hpk⟩ := List.mem_map.mp hmem
  have : d.any (fun p => decide (p.1 = k)) = true := by
    rw [List.any_eq_true]; exact ⟨p, hp, by simp [hpk]⟩
  rw [hasKey] at h
  simp [this] at h

theorem find?_map_update_ne (d : Store) (k q : JValue) (v : CleanedEvent)
    (hne : q ≠ k) :
    (d.map (fun p => if p.1 = k then (k, v) else p)).find?
      (fun p => decide (p.1 = q)) = d.find? (fun p => decide (p.1 = q)) := by
  induction d with
  | nil => rfl
  | cons p d ih =>
    by_cases hpk : p.1 = k
    · have h1 : ¬ ((k, v).1 = q) := by simpa using fun h => hne h.symm
      have h2 : ¬ (p.1 = q) := by rw [hpk]; simpa using fun h => hne h.symm
      simp only [List.map_cons, List.find?_cons, hpk, if_pos rfl]
      simp [h1, h2, ih]
    · simp only [List.map_cons, List.find?_cons, if_neg hpk]
      by_cases hpq : p.1 = q
      · simp [hpq]
      · simp [hpq, ih]

theorem find?_map_update_eq (d : Store) (k : JValue) (v : CleanedEvent)
    (hk : hasKey d k = true) :
    (d.map (fun p => if p.1 = k then (k, v) else p)).find?
      (fun p => decide (p.1 = k)) = some (k, v) := by
  induction d with
  | nil => simp [hasKey] at hk
  | cons p d ih =>
    by_cases hpk : p.1 = k
    · simp [hpk]
    · have hk2 : hasKey d k = true := by
        rw [hasKey] at hk ⊢
        simpa [hpk] using hk
      simp only [List.map_cons, List.find?_cons, if_neg hpk]
      simp [hpk, ih hk2]

theorem lookup_dictInsert (d : Store) (k : JValue) (v : CleanedEvent)
    (q : JValue) :
    lookupStore (dictInsert d k v) q =
      if q = k then some v else lookupStore d q := by
  unfold dictInsert
  by_cases hk : hasKey d k
  · rw [if_pos hk]
    by_cases hq : q = k
    · subst hq
      simp [lookupStore, find?_map_update_eq d q v hk]
    · simp [lookupStore, find?_map_update_ne d k q v hq, hq]
  · rw [if_neg hk]
    have hnone : d.find? (fun p => decide (p.1 = k)) = none := by
      rw [List.find?_eq_none]
      intro p hp
      simp only [decide_eq_true_eq]
      intro hpk
      have : d.any (fun p => decide (p.1 = k)) = true := by
        rw [List.any_eq_true]; exact ⟨p, hp, by simp [hpk]⟩
      rw [hasKey] at hk
      simp [this] at hk
    by_cases hq : q = k
    · subst hq
      simp [lookupStore, List.find?_append, hnone]
    · have : ¬ ((k, v).1 = q) := by simpa using fun h => hq h.symm
      simp only [lookupStore, List.find?_append]
      simp only [List.find?_cons, List.find?_nil]
      simp only [this, decide_eq_true_eq]
      simp only [if_neg hq]
      cases hfd : d.find? (fun p => decide (p.1 = q)) <;> simp [this]

theorem keysOf_dictInsert_present (d : Store) (k : JValue) (v : CleanedEvent)
    (hk : hasKey d k = true) : keysOf (dictInsert d k v) = keysOf d := by
  unfold dictInsert keysOf
  rw [if_pos hk, List.map_map]
  apply List.map_congr_left
  intro p _
  by_cases hpk : p.1 = k
  · simp [hpk]
  · simp [hpk]

theorem keysOf_dictInsert_absent (d : Store) (k : JValue) (v : CleanedEvent)
    (hk : hasKey d k = false) : keysOf (dictInsert d k v) = keysOf d ++ [k] := by
  unfold dictInsert keysOf
  rw [if_neg (by simp [hk])]
  simp

theorem length_dictInsert (d : Store) (k : JValue) (v : CleanedEvent) :
    (dictInsert d k v).length =
      if hasKey d k then d.length else d.length + 1 := by
  unfold dictInsert
  by_cases hk : hasKey d k <;> simp [hk]

theorem mem_dictInsert (d : Store) (k : JValue) (v : CleanedEvent)
    (p : JValue × CleanedEvent) (hp : p ∈ dictInsert d k v) :
    p ∈ d ∨ p = (k, v) := by
  unfold dictInsert at hp
  by_cases hk : hasKey d k
  · rw [if_pos hk] at hp
    obtain ⟨q, hq, hqp⟩ := List.mem_map.mp hp
    by_cases hqk : q.1 = k
    · right; rw [← hqp]; simp [hqk]
    · left; rw [← hqp]; simpa [hqk] using hq
  · rw [if_neg hk] at hp
    rcases List.mem_append.mp hp with h | h
    · exact Or.inl h
    · right; simpa using h

theorem hasKey_dictInsert_mono (d : Store) (k q : JValue) (v : CleanedEvent)
    (hq : hasKey d q = true) : hasKey (dictInsert d k v) q = true := by
  rw [← lookupStore_isSome] at hq ⊢
  rw [lookup_dictInsert]
  by_cases hqk : q = k <;> simp [hqk, hq]

theorem hasKey_eq_mem_keysOf (d : Store) (k : JValue) :
    hasKey d k = true ↔ k ∈ keysOf d := by
  constructor
  · intro h
    obtain ⟨p, hp, hpk⟩ := List.any_eq_true.mp h
    simp only [decide_eq_true_eq] at hpk
    exact hpk ▸ List.mem_map_of_mem Prod.fst hp
  · intro h
    obtain ⟨p, hp, hpk⟩ := List.mem_map.mp h
    exact List.any_eq_true.mpr ⟨p, hp, by simp [hpk]⟩

theorem nodup_keysOf_dictInsert (d : Store) (k : JValue) (v : CleanedEvent)
    (hnd : (keysOf d).Nodup) : (keysOf (dictInsert d k v)).Nodup := by
  by_cases hk : hasKey d k
  · rw [keysOf_dictInsert_present d k v hk]; exact hnd
  · rw [keysOf_dictInsert_absent d k v (by simpa using hk)]
    rw [List.nodup_append]
    refine ⟨hnd, List.nodup_singleton k, ?_⟩
    intro a ha
    simp only [List.mem_singleton]
    intro hak
    subst hak
    exact (hasKey_false_not_mem d a (by simpa using hk)) ha

theorem storeStep_truthy (d : Store) (e : CleanedEvent)
    (ht : pyTruthy e.id = true) : storeStep d e = dictInsert d e.id e := by
  unfold storeStep; rw [if_pos ht]

theorem storeStep_falsy (d : Store) (e : CleanedEvent)
    (ht : pyTruthy e.id = false) : storeStep d e = d := by
  unfold storeStep; rw [if_neg (by simp [ht])]

theorem lookupStore_cons (p : JValue × CleanedEvent) (d : Store) (k : JValue) :
    lookupStore (p :: d) k =
      if p.1 = k then some p.2 else lookupStore d k := by
  simp only [lookupStore, List.find?_cons]
  by_cases h : p.1 = k <;> simp [h]

theorem fst_foldl_mergeStep (l : List CleanedEvent) :
    ∀ (d : Store) (n u : Nat),
      (l.foldl mergeStep (d, n, u)).1 = l.foldl storeStep d := by
  induction l with
  | nil => intro d n u; rfl
  | cons e l ih =>
    intro d n u
    simp only [List.foldl_cons]
    by_cases ht : pyTruthy e.id
    · by_cases hk : hasKey d e.id
      · have hstep : mergeStep (d, n, u) e = (dictInsert d e.id e, n, u + 1) := by
          unfold mergeStep; simp [ht, hk]
        rw [hstep, storeStep_truthy d e ht, ih]
      · have hstep : mergeStep (d, n, u) e = (dictInsert d e.id e, n + 1, u) := by
          unfold mergeStep; simp [ht, hk]
        rw [hstep, storeStep_truthy d e ht, ih]
    · have hstep : mergeStep (d, n, u) e = (d, n, u) := by
        unfold mergeStep; simp [ht]
      rw [hstep, storeStep_falsy d e (by simpa using ht), ih]

theorem lastAssign_nil (k : JValue) : lastAssign [] k = none := rfl

theorem lastAssign_cons (e : CleanedEvent) (l : List CleanedEvent) (k : JValue) :
    lastAssign (e :: l) k =
      (lastAssign l k).or
        ((if pyTruthy e.id && decide (e.id = k) then some e else none)) := by
  unfold lastAssign
  rw [List.reverse_cons, List.find?_append]
  congr 1
  simp only [List.find?_cons, List.find?_nil]
  by_cases h : pyTruthy e.id && decide (e.id = k) <;> simp [h]

theorem lookup_foldl_storeStep (l : List CleanedEvent) :
    ∀ (d : Store) (k : JValue),
      lookupStore (l.foldl storeStep d) k =
        (lastAssign l k).or (lookupStore d k) := by
  induction l with
  | nil => intro d k; rw [List.foldl_nil, lastAssign_nil, Option.none_or]
  | cons e l ih =>
    intro d k
    simp only [List.foldl_cons]
    rw [ih, lastAssign_cons, Option.or_assoc]
    congr 1
    by_cases ht : pyTruthy e.id
    · rw [storeStep_truthy d e ht, lookup_dictInsert]
      by_cases hek : e.id = k
      · rw [if_pos hek.symm]
        rw [if_pos (show (pyTruthy e.id && decide (e.id = k)) = true by
          rw [ht, Bool.true_and]; exact decide_eq_true hek)]
        rfl
      · rw [if_neg (fun h => hek h.symm)]
        rw [if_neg (show ¬ (pyTruthy e.id && decide (e.id = k)) = true by
          simp [hek])]
        rw [Option.none_or]
    · rw [storeStep_falsy d e (by simpa using ht),
        if_neg (by simp [ht]), Option.none_or]

theorem hasKey_foldl_storeStep_of_mem (l : List CleanedEvent) (d : Store)
    (e : CleanedEvent) (he : e ∈ l) (ht : pyTruthy e.id = true) :
    hasKey (l.foldl storeStep d) e.id = true := by
  rw [← lookupStore_isSome, lookup_foldl_storeStep]
  have hs : (lastAssign l e.id).isSome := by
    unfold lastAssign
    rw [List.find?_isSome]
    exact ⟨e, List.mem_reverse.mpr he, by simp [ht]⟩
  cases hla : lastAssign l e.id with
  | some x => simp
  | none => rw [hla] at hs; simp at hs

theorem keysOf_foldl_storeStep_of_present (l : List CleanedEvent) :
    ∀ (d : Store),
      (∀ e ∈ l, pyTruthy e.id = true → hasKey d e.id = true) →
      keysOf (l.foldl storeStep d) = keysOf d := by
  induction l with
  | nil => intro d _; rfl
  | cons e l ih =>
    intro d h
    simp only [List.foldl_cons]
    by_cases ht : pyTruthy e.id
    · have hk := h e (List.mem_cons_self e l) ht
      rw [storeStep_truthy d e ht,
        ih (dictInsert d e.id e)
          (fun x hx hxt => hasKey_dictInsert_mono d e.id x.id e
            (h x (List.mem_cons_of_mem e hx) hxt)),
        keysOf_dictInsert_present d e.id e hk]
    · rw [storeStep_falsy d e (by simpa using ht)]
      exact ih d (fun x hx hxt => h x (List.mem_cons_of_mem e hx) hxt)

theorem foldl_mergeStep_of_all_present (l : List CleanedEvent) :
    ∀ (d : Store) (n u : Nat),
      (∀ e ∈ l, pyTruthy e.id = true → hasKey d e.id = true) →
      l.foldl mergeStep (d, n, u) =
        (l.foldl storeStep d, n, u + l.countP (fun e => pyTruthy e.id)) := by
  induction l with
  | nil => intro d n u _; simp
  | cons e l ih =>
    intro d n u h
    simp only [List.foldl_cons]
    by_cases ht : pyTruthy e.id
    · have hk := h e (List.mem_cons_self e l) ht
      have hstep : mergeStep (d, n, u) e = (dictInsert d e.id e, n, u + 1) := by
        unfold mergeStep; simp [ht, hk]
      rw [hstep, storeStep_truthy d e ht,
        ih (dictInsert d e.id e) n (u + 1)
          (fun x hx hxt => hasKey_dictInsert_mono d e.id x.id e
            (h x (List.mem_cons_of_mem e hx) hxt))]
      rw [List.countP_cons]
      simp only [ht, if_pos]
      congr 2
      omega
    · have hstep : mergeStep (d, n, u) e = (d, n, u) := by
        unfold mergeStep; simp [ht]
      rw [hstep, storeStep_falsy d e (by simpa using ht),
        ih d n u (fun x hx hxt => h x (List.mem_cons_of_mem e hx) hxt)]
      rw [List.countP_cons]
      simp [ht]

theorem nodup_keysOf_foldl_storeStep (l : List CleanedEvent) :
    ∀ (d : Store), (keysOf d).Nodup → (keysOf (l.foldl storeStep d)).Nodup := by
  induction l with
  | nil => intro d h; exact h
  | cons e l ih =>
    intro d h
    simp only [List.foldl_cons]
    apply ih
    by_cases ht : pyTruthy e.id
    · rw [storeStep_truthy d e ht]
      exact nodup_keysOf_dictInsert d e.id e h
    · rw [storeStep_falsy d e (by simpa using ht)]
      exact h

theorem store_ext (d : Store) : ∀ (d2 : Store),
    keysOf d = keysOf d2 → (keysOf d).Nodup →
    (∀ k, lookupStore d k = lookupStore d2 k) → d = d2 := by
  induction d with
  | nil =>
    intro d2 hkeys _ _
    cases d2 with
    | nil => rfl
    | cons p d2 => simp [keysOf] at hkeys
  | cons p d ih =>
    intro d2 hkeys hnd hlook
    cases d2 with
    | nil => simp [keysOf] at hkeys
    | cons q d2 =>
      have hkeys2 : p.1 :: keysOf d = q.1 :: keysOf d2 := hkeys
      injection hkeys2 with hk1 hk2
      have hv : p.2 = q.2 := by
        have h0 := hlook p.1
        rw [lookupStore_cons, lookupStore_cons, if_pos rfl, if_pos hk1.symm] at h0
        simpa using h0
      have hndc := List.nodup_cons.mp (show (p.1 :: keysOf d).Nodup from hnd)
      have hlooktail : ∀ k, lookupStore d k = lookupStore d2 k := by
        intro k
        by_cases hkp : k = p.1
        · rw [hkp, lookupStore_eq_none_of_not_mem d p.1 hndc.1,
            lookupStore_eq_none_of_not_mem d2 p.1 (hk2 ▸ hndc.1)]
        · have h0 := hlook k
          rw [lookupStore_cons, lookupStore_cons,
            if_neg (fun h => hkp h.symm),
            if_neg (fun h => hkp (hk1 ▸ h).symm)] at h0
          exact h0
      rw [ih d2 hk2 hndc.2 hlooktail, Prod.ext hk1 hv]

set_option maxHeartbeats 1000000 in
theorem processPost_ok_some_truthy (parse : String → Option JValue)
    (post : JValue) (e : CleanedEvent)
    (h : processPost parse post = .ok (some e)) :
    pyTruthy e.begin = true := by
  unfold processPost at h
  simp only [bind, Except.bind] at h
  iterate 14 (all_goals try split at h)
  all_goals try simp_all [pyTruthy]
  all_goals (subst h; simp_all [pyTruthy])

theorem processNodes_all (parse : String → Option JValue)
    (P : CleanedEvent → Prop)
    (hP : ∀ post e, processPost parse post = .ok (some e) → P e) :
    ∀ (nodes : List JValue) (acc res : List CleanedEvent),
      processNodes parse nodes acc = .ok res →
      (∀ e ∈ acc, P e) → ∀ e ∈ res, P e := by
  intro nodes
  induction nodes with
  | nil =>
    intro acc res h hacc
    unfold processNodes at h
    cases h
    exact hacc
  | cons post rest ih =>
    intro acc res h hacc
    unfold processNodes at h
    simp only [bind, Except.bind] at h
    cases hpp : processPost parse post with
    | error m => rw [hpp] at h; cases h
    | ok o =>
      rw [hpp] at h
      cases o with
      | some e2 =>
        refine ih (acc ++ [e2]) res h ?_
        intro x hx
        rcases List.mem_append.mp hx with hx1 | hx1
        · exact hacc x hx1
        · rw [List.mem_singleton.mp hx1]
          exact hP post e2 hpp
      | none => exact ih acc res h hacc

theorem cleanData_ok_truthy (parse : String → Option JValue) (raw : JValue)
    (l : List CleanedEvent) (h : cleanData parse raw = .ok l) :
    ∀ e ∈ l, pyTruthy e.begin = true := by
  unfold cleanData at h
  simp only [bind, Except.bind] at h
  iterate 8 (all_goals try split at h)
  all_goals try (cases h)
  all_goals try (intro e he; exact absurd he (List.not_mem_nil e))
  all_goals
    exact fun e he =>
      processNodes_all parse _ (processPost_ok_some_truthy parse) _ _ _ h
        (fun x hx => absurd hx (List.not_mem_nil x)) e he

theorem foldl_mergeStep_inv (l : List CleanedEvent) :
    ∀ (d : Store) (n u : Nat),
      (l.foldl mergeStep (d, n, u)).1.length + n =
        d.length + (l.foldl mergeStep (d, n, u)).2.1 ∧
      (l.foldl mergeStep (d, n, u)).2.1 + (l.foldl mergeStep (d, n, u)).2.2 =
        n + u + l.countP (fun e => pyTruthy e.id) ∧
      ∀ k, hasKey d k = true → hasKey (l.foldl mergeStep (d, n, u)).1 k = true := by
  induction l with
  | nil =>
    intro d n u
    refine ⟨by simp [Nat.add_comm], by simp [Nat.add_assoc], fun k hk => hk⟩
  | cons e l ih =>
    intro d n u
    have hc := List.countP_cons (fun e => pyTruthy e.id) e l
    simp only [List.foldl_cons]
    by_cases ht : pyTruthy e.id
    · simp only [ht, if_pos] at hc
      by_cases hk : hasKey d e.id
      · have hstep : mergeStep (d, n, u) e = (dictInsert d e.id e, n, u + 1) := by
          unfold mergeStep; simp [ht, hk]
        have hlen : (dictInsert d e.id e).length = d.length := by
          rw [length_dictInsert, if_pos hk]
        obtain ⟨ih1, ih2, ih3⟩ := ih (dictInsert d e.id e) n (u + 1)
        rw [hstep]
        refine ⟨by omega, by omega, ?_⟩
        intro k hkk
        exact ih3 k (hasKey_dictInsert_mono d e.id k e hkk)
      · have hstep : mergeStep (d, n, u) e = (dictInsert d e.id e, n + 1, u) := by
          unfold mergeStep; simp [ht, hk]
        have hlen : (dictInsert d e.id e).length = d.length + 1 := by
          rw [length_dictInsert, if_neg hk]
        obtain ⟨ih1, ih2, ih3⟩ := ih (dictInsert d e.id e) (n + 1) u
        rw [hstep]
        refine ⟨by omega, by omega, ?_⟩
        intro k hkk
        exact ih3 k (hasKey_dictInsert_mono d e.id k e hkk)
    · simp only [ht, if_neg, Bool.false_eq_true, if_false] at hc
      have hstep : mergeStep (d, n, u) e = (d, n, u) := by
        unfold mergeStep; simp [ht]
      obtain ⟨ih1, ih2, ih3⟩ := ih d n u
      rw [hstep]
      exact ⟨by omega, by omega, ih3⟩

/-- C1: merging a normalized event list into a store is idempotent — a
second merge of the same list leaves the store contents (the full
insertion-ordered dict) unchanged, counts no event as new, and counts
every event with a non-empty (truthy) id as updated. -/
theorem merge_idempotent (d : Store) (l : List CleanedEvent)
    (hnd : (keysOf d).Nodup) :
    (mergeRun (mergeRun d l).1 l).1 = (mergeRun d l).1 ∧
    (mergeRun (mergeRun d l).1 l).2.1 = 0 ∧
    (mergeRun (mergeRun d l).1 l).2.2 =
      (l.filter (fun e => pyTruthy e.id)).length := by
  have hd1 : (mergeRun d l).1 = l.foldl storeStep d := fst_foldl_mergeStep l d 0 0
  have hpres : ∀ e ∈ l, pyTruthy e.id = true →
      hasKey (mergeRun d l).1 e.id = true := by
    intro e he ht
    rw [hd1]
    exact hasKey_foldl_storeStep_of_mem l d e he ht
  have hrun2 : mergeRun (mergeRun d l).1 l =
      (l.foldl storeStep (mergeRun d l).1, 0,
        0 + l.countP (fun e => pyTruthy e.id)) :=
    foldl_mergeStep_of_all_present l (mergeRun d l).1 0 0 hpres
  have hkeys : keysOf (l.foldl storeStep (mergeRun d l).1) = keysOf (mergeRun d l).1 :=
    keysOf_foldl_storeStep_of_present l (mergeRun d l).1 hpres
  have hnd1 : (keysOf (mergeRun d l).1).Nodup := by
    rw [hd1]
    exact nodup_keysOf_foldl_storeStep l d hnd
  have hlook : ∀ k, lookupStore (l.foldl storeStep (mergeRun d l).1) k =
      lookupStore (mergeRun d l).1 k := by
    intro k
    rw [lookup_foldl_storeStep]
    cases hla : lastAssign l k with
    | none => rw [Option.none_or]
    | some x =>
      have hx : lookupStore (mergeRun d l).1 k = some x := by
        rw [hd1, lookup_foldl_storeStep, hla]
        rfl
      rw [hx]
      rfl
  have hstore : l.foldl storeStep (mergeRun d l).1 = (mergeRun d l).1 :=
    store_ext _ (mergeRun d l).1 hkeys (hkeys ▸ hnd1) hlook
  refine ⟨?_, ?_, ?_⟩
  · rw [hrun2]
    exact hstore
  · rw [hrun2]
  · rw [hrun2]
    simp [List.countP_eq_length_filter]

/-- C1 witness: the idempotence theorem applied to the empty store and
the one-event list containing `evGood`. -/
theorem merge_idempotent_witness :
    (mergeRun (mergeRun [] [evGood]).1 [evGood]).1 = (mergeRun [] [evGood]).1 ∧
    (mergeRun (mergeRun [] [evGood]).1 [evGood]).2.1 = 0 ∧
    (mergeRun (mergeRun [] [evGood]).1 [evGood]).2.2 =
      ([evGood].filter (fun e => pyTruthy e.id)).length :=
  merge_idempotent [] [evGood] List.nodup_nil

/-- C10: size conservation of the merge loop — the merged store is the
existing store plus exactly `new_count` entries, `new_count` plus
`updated_count` is the number of incoming events with a truthy id, and
every id present before the merge is still present after it. -/
theorem merge_size_conservation (d : Store) (l : List CleanedEvent) :
    (mergeRun d l).1.length = d.length + (mergeRun d l).2.1 ∧
    (mergeRun d l).2.1 + (mergeRun d l).2.2 =
      (l.filter (fun e => pyTruthy e.id)).length ∧
    ∀ k, hasKey d k = true → hasKey (mergeRun d l).1 k = true := by
  obtain ⟨h1, h2, h3⟩ := foldl_mergeStep_inv l d 0 0
  unfold mergeRun
  refine ⟨by omega, ?_, h3⟩
  rw [← List.countP_eq_length_filter]
  omega

theorem pyTruthy_ne_null (v : JValue) (h : pyTruthy v = true) :
    v ≠ JValue.null := by
  intro hn
  rw [hn] at h
  simp [pyTruthy] at h

theorem pyTruthy_ne_empty_str (v : JValue) (h : pyTruthy v = true) :
    v ≠ JValue.str "" := by
  intro hn
  rw [hn] at h
  simp [pyTruthy] at h

theorem mem_foldl_storeStep (l : List CleanedEvent) :
    ∀ (d : Store) (p : JValue × CleanedEvent),
      p ∈ l.foldl storeStep d →
      p ∈ d ∨ ∃ e ∈ l, pyTruthy e.id = true ∧ p = (e.id, e) := by
  induction l with
  | nil => intro d p hp; exact Or.inl hp
  | cons e l ih =>
    intro d p hp
    simp only [List.foldl_cons] at hp
    rcases ih (storeStep d e) p hp with hp1 | ⟨x, hx, hxt, hxp⟩
    · by_cases ht : pyTruthy e.id
      · rw [storeStep_truthy d e ht] at hp1
        rcases mem_dictInsert d e.id e p hp1 with hp2 | hp2
        · exact Or.inl hp2
        · exact Or.inr ⟨e, List.mem_cons_self e l, ht, hp2⟩
      · rw [storeStep_falsy d e (by simpa using ht)] at hp1
        exact Or.inl hp1
    · exact Or.inr ⟨x, List.mem_cons_of_mem e hx, hxt, hxp⟩

/-- C3 counterexample: an incoming event whose id (the empty string) is
absent from the (empty) store is not inserted and is not counted as
new — the merge loop skips every event with a falsy id, contradicting
the unconditional insertion clause of the claim. -/
theorem merge_insert_counterexample :
    (mergeRun [] [evEmptyId]).1 = [] ∧ (mergeRun [] [evEmptyId]).2.1 = 0 := by
  constructor <;> rfl

/-- C3 amended: merging a single incoming event with a truthy id whose
id is already in the store overwrites that entry with the incoming
event and counts one update and no insertion; a truthy-id event whose
id is absent is appended and counts one insertion and no update; an
event with a falsy (empty or missing) id is skipped entirely. -/
theorem merge_precedence (d : Store) (e : CleanedEvent) :
    (pyTruthy e.id = true → hasKey d e.id = true →
      lookupStore (mergeRun d [e]).1 e.id = some e ∧
      (mergeRun d [e]).2.1 = 0 ∧ (mergeRun d [e]).2.2 = 1) ∧
    (pyTruthy e.id = true → hasKey d e.id = false →
      (mergeRun d [e]).1 = d ++ [(e.id, e)] ∧
      (mergeRun d [e]).2.1 = 1 ∧ (mergeRun d [e]).2.2 = 0) ∧
    (pyTruthy e.id = false → mergeRun d [e] = (d, 0, 0)) := by
  have hrun : mergeRun d [e] = mergeStep (d, 0, 0) e := by
    unfold mergeRun
    rw [List.foldl_cons, List.foldl_nil]
  refine ⟨?_, ?_, ?_⟩
  · intro ht hk
    have hstep : mergeStep (d, 0, 0) e = (dictInsert d e.id e, 0, 1) := by
      unfold mergeStep; simp [ht, hk]
    rw [hrun, hstep]
    refine ⟨?_, rfl, rfl⟩
    rw [lookup_dictInsert, if_pos rfl]
  · intro ht hk
    have hstep : mergeStep (d, 0, 0) e = (dictInsert d e.id e, 1, 0) := by
      unfold mergeStep; simp [ht, hk]
    rw [hrun, hstep]
    refine ⟨?_, rfl, rfl⟩
    unfold dictInsert
    rw [if_neg (by simp [hk])]
  · intro ht
    have hstep : mergeStep (d, 0, 0) e = (d, 0, 0) := by
      unfold mergeStep; simp [ht]
    rw [hrun, hstep]

/-- C3 witness: the amended theorem applied to a store holding `evGood`
with the same-id different-summary incoming `evGood2` (update case) and
to the empty store with incoming `evGood` (insertion case). -/
theorem merge_precedence_witness :
    (lookupStore (mergeRun [(evGood.id, evGood)] [evGood2]).1 evGood2.id =
        some evGood2 ∧
      (mergeRun [(evGood.id, evGood)] [evGood2]).2.1 = 0 ∧
      (mergeRun [(evGood.id, evGood)] [evGood2]).2.2 = 1) ∧
    ((mergeRun [] [evGood]).1 = [] ++ [(evGood.id, evGood)] ∧
      (mergeRun [] [evGood]).2.1 = 1 ∧ (mergeRun [] [evGood]).2.2 = 0) :=
  ⟨(merge_precedence [(evGood.id, evGood)] evGood2).1 (by decide) (by decide),
   (merge_precedence [] evGood).2.1 (by decide) (by decide)⟩

/-- C2 counterexample: a run that loads a persisted event with id `"A"`
and `begin = null` (a shape the persisted-store file format allows) and
fetches a payload yielding no cleaned events ends with that event in
the post-merge store — its `begin` is `null`, contradicting the claim
for events coming from the loaded file. -/
theorem post_merge_begin_counterexample :
    cleanData parseNone payloadNoData = .ok [] ∧
    (mergeRun (buildDict [evNullBegin]) []).1 =
      [(JValue.str "A", evNullBegin)] ∧
    evNullBegin.begin = JValue.null := by
  refine ⟨rfl, rfl, rfl⟩

/-- C2 amended: every entry of the post-merge store has a truthy (hence
non-empty) id; its `begin` is non-null provided every event loaded from
the persisted file has a non-null `begin` (the normalizer guarantees
this for the newly cleaned events, but nothing in the code checks it
for loaded ones). -/
theorem post_merge_store_invariant (parse : String → Option JValue)
    (loaded : List CleanedEvent) (raw : JValue) (cleaned : List CleanedEvent)
    (hclean : cleanData parse raw = .ok cleaned)
    (hload : ∀ e ∈ loaded, e.begin ≠ JValue.null) :
    ∀ p ∈ (mergeRun (buildDict loaded) cleaned).1,
      pyTruthy p.2.id = true ∧ p.2.id ≠ JValue.str "" ∧
      p.2.begin ≠ JValue.null := by
  intro p hp
  have h1 := fst_foldl_mergeStep cleaned (buildDict loaded) 0 0
  unfold mergeRun at hp
  rw [h1] at hp
  have hmain : pyTruthy p.2.id = true ∧ p.2.begin ≠ JValue.null := by
    rcases mem_foldl_storeStep cleaned (buildDict loaded) p hp with
      hp1 | ⟨e, he, ht, hpe⟩
    · unfold buildDict at hp1
      rcases mem_foldl_storeStep loaded [] p hp1 with hp2 | ⟨e, he, ht, hpe⟩
      · exact absurd hp2 (List.not_mem_nil p)
      · subst hpe
        exact ⟨ht, hload e he⟩
    · subst hpe
      refine ⟨ht, pyTruthy_ne_null e.begin ?_⟩
      exact cleanData_ok_truthy parse raw cleaned hclean e he
  exact ⟨hmain.1, pyTruthy_ne_empty_str p.2.id hmain.1, hmain.2⟩

/-- C2 witness: the amended invariant applied to the run that loads
`evGood` and fetches `payloadNoData`, evaluated at the single
post-merge store entry. -/
theorem post_merge_store_invariant_witness :
    pyTruthy evGood.id = true ∧ evGood.id ≠ JValue.str "" ∧
    evGood.begin ≠ JValue.null :=
  post_merge_store_invariant parseNone [evGood] payloadNoData [] rfl
    (by decide) (evGood.id, evGood) (by decide)

theorem processFields_begin_src (parse : String → Option JValue) :
    ∀ (fs : List JValue) (acc res : JValue × JValue),
      processFields parse fs acc = .ok res →
      res.1 = acc.1 ∨
      ∃ f ∈ fs, ∃ fkv, f = JValue.obj fkv ∧
        (kvLookup fkv "key").getD JValue.null = JValue.str "start_date" ∧
        (kvLookup fkv "value").getD JValue.null ≠ JValue.null ∧
        res.1 = decodeFieldValue parse
          ((kvLookup fkv "value").getD JValue.null) := by
  intro fs
  induction fs with
  | nil =>
    intro acc res h
    unfold processFields at h
    cases h
    exact Or.inl rfl
  | cons f fs ih =>
    intro acc res h
    unfold processFields at h
    simp only [bind, Except.bind] at h
    cases f with
    | null => simp [pyGet] at h
    | bool b => simp [pyGet] at h
    | num n => simp [pyGet] at h
    | str s => simp [pyGet] at h
    | arr xs => simp [pyGet] at h
    | obj fkv =>
      simp only [pyGet] at h
      by_cases hv : (kvLookup fkv "value").getD JValue.null = JValue.null
      · rw [if_pos hv] at h
        rcases ih acc res h with h1 | ⟨g, hg, rest⟩
        · exact Or.inl h1
        · exact Or.inr ⟨g, List.mem_cons_of_mem _ hg, rest⟩
      · rw [if_neg hv] at h
        by_cases hk : (kvLookup fkv "key").getD JValue.null =
            JValue.str "start_date"
        · rw [if_pos hk] at h
          rcases ih _ res h with h1 | ⟨g, hg, rest⟩
          · exact Or.inr ⟨JValue.obj fkv, List.mem_cons_self _ _,
              fkv, rfl, hk, hv, h1⟩
          · exact Or.inr ⟨g, List.mem_cons_of_mem _ hg, rest⟩
        · rw [if_neg hk] at h
          by_cases he : (kvLookup fkv "key").getD JValue.null =
              JValue.str "end_date"
          · rw [if_pos he] at h
            rcases ih _ res h with h1 | ⟨g, hg, rest⟩
            · exact Or.inl h1
            · exact Or.inr ⟨g, List.mem_cons_of_mem _ hg, rest⟩
          · rw [if_neg he] at h
            rcases ih acc res h with h1 | ⟨g, hg, rest⟩
            · exact Or.inl h1
            · exact Or.inr ⟨g, List.mem_cons_of_mem _ hg, rest⟩

set_option maxHeartbeats 1000000 in
theorem processPost_begin_src (parse : String → Option JValue) (post : JValue)
    (e : CleanedEvent) (h : processPost parse post = .ok (some e)) :
    ∃ fv ∈ startValues post, decodeFieldValue parse fv = e.begin := by
  unfold processPost at h
  simp only [bind, Except.bind] at h
  cases post with
  | null => simp [pyGet] at h
  | bool b => simp [pyGet] at h
  | num n => simp [pyGet] at h
  | str s => simp [pyGet] at h
  | arr xs => simp [pyGet] at h
  | obj kvs =>
    simp only [pyGet, pyContains, pyIndex] at h
    cases htl : pyAsString ((kvLookup kvs "title").getD (JValue.str "No Title")) with
    | error m => simp only [htl] at h; cases h
    | ok titles =>
      simp only [htl] at h
      cases hds : pyAsString ((kvLookup kvs "description").getD (JValue.str "")) with
      | error m => simp only [hds] at h; cases h
      | ok descs =>
        simp only [hds] at h
        by_cases hcf : kvs.any (fun p => decide (p.1 = "fields")) = true
        · rw [if_pos hcf] at h
          cases hkl : kvLookup kvs "fields" with
          | none => simp only [hkl] at h; cases h
          | some fieldsv =>
            simp only [hkl] at h
            by_cases htr : pyTruthy fieldsv = true
            · rw [if_pos htr] at h
              cases hit : pyIter fieldsv with
              | error m => simp only [hit] at h; cases h
              | ok fields =>
                simp only [hit] at h
                cases hpf : processFields parse fields (JValue.null, JValue.null) with
                | error m => simp only [hpf] at h; cases h
                | ok slots =>
                  simp only [hpf] at h
                  by_cases hsb : pyTruthy slots.1 = true
                  · rw [if_pos hsb] at h
                    injection h with h1
                    injection h1 with h2
                    subst h2
                    rcases processFields_begin_src parse fields
                        (JValue.null, JValue.null) slots hpf with
                      h0 | ⟨f, hf, fkv, hfo, hkey, hval, hres⟩
                    · rw [h0] at hsb; simp [pyTruthy] at hsb
                    · subst hfo
                      cases fieldsv with
                      | null => simp [pyIter] at hit
                      | bool b2 => simp [pyIter] at hit
                      | num n2 => simp [pyIter] at hit
                      | str s2 =>
                        simp only [pyIter] at hit
                        injection hit with hfs
                        rw [← hfs] at hf
                        obtain ⟨c, _, hc⟩ := List.mem_map.mp hf
                        exact absurd hc (by intro hcc; cases hcc)
                      | obj kvs2 =>
                        simp only [pyIter] at hit
                        injection hit with hfs
                        rw [← hfs] at hf
                        obtain ⟨c, _, hc⟩ := List.mem_map.mp hf
                        exact absurd hc (by intro hcc; cases hcc)
                      | arr fs2 =>
                        simp only [pyIter] at hit
                        injection hit with hfs
                        rw [← hfs] at hf
                        refine ⟨(kvLookup fkv "value").getD JValue.null, ?_,
                          hres.symm⟩
                        simp only [startValues, hkl, if_pos htr]
                        rw [List.mem_filterMap]
                        refine ⟨JValue.obj fkv, hf, ?_⟩
                        show (if ((kvLookup fkv "key").getD JValue.null =
                              JValue.str "start_date" ∧
                            (kvLookup fkv "value").getD JValue.null ≠
                              JValue.null) then
                            some ((kvLookup fkv "value").getD JValue.null)
                          else none) =
                          some ((kvLookup fkv "value").getD JValue.null)
                        rw [if_pos ⟨hkey, hval⟩]
                  · rw [if_neg hsb] at h
                    cases h
            · rw [if_neg htr] at h
              simp [pyTruthy] at h
        · rw [if_neg hcf] at h
          simp [pyTruthy] at h

/-- C4: the normalizer's filter law — every event `clean_data` emits
has a truthy `begin` (hence non-null and non-empty), and an event
emitted for a post record owes its `begin` to some `start_date` field
of that record whose raw value is non-null; a record whose start-date
field is absent or null (no such field value exists, or every decoded
candidate is falsy) therefore never yields an event. -/
theorem clean_data_filter_law :
    (∀ (parse : String → Option JValue) (raw : JValue)
        (l : List CleanedEvent),
      cleanData parse raw = .ok l →
      ∀ e ∈ l, pyTruthy e.begin = true ∧ e.begin ≠ JValue.null ∧
        e.begin ≠ JValue.str "") ∧
    (∀ (parse : String → Option JValue) (post : JValue) (e : CleanedEvent),
      processPost parse post = .ok (some e) →
      pyTruthy e.begin = true ∧
      ∃ fv ∈ startValues post, decodeFieldValue parse fv = e.begin) := by
  constructor
  · intro parse raw l h e he
    have ht := cleanData_ok_truthy parse raw l h e he
    exact ⟨ht, pyTruthy_ne_null e.begin ht, pyTruthy_ne_empty_str e.begin ht⟩
  · intro parse post e h
    exact ⟨processPost_ok_some_truthy parse post e h,
      processPost_begin_src parse post e h⟩

/-- C4 witness: the filter law applied to the end-to-end demo payload
and its post record. -/
theorem clean_data_filter_law_witness :
    (pyTruthy demoCleaned.begin = true ∧ demoCleaned.begin ≠ JValue.null ∧
      demoCleaned.begin ≠ JValue.str "") ∧
    (pyTruthy demoCleaned.begin = true ∧
      ∃ fv ∈ startValues demoPost,
        decodeFieldValue parseNone fv = demoCleaned.begin) :=
  ⟨clean_data_filter_law.1 parseNone payloadDemo [demoCleaned] rfl
      demoCleaned (by decide),
   clean_data_filter_law.2 parseNone demoPost demoCleaned rfl⟩

/-- C5: load recovery — whatever the state of the persisted store file
(absent, empty, or content that `json.loads` rejects), `load_from_file`
returns the empty list and never raises (the model is total and every
failure branch is caught). -/
theorem load_recovery (parse : String → Option JValue) (file : Option String)
    (h : ∀ c, file = some c → c = "" ∨ parse c = none) :
    loadFromFile parse file = JValue.arr [] := by
  cases file with
  | none => rfl
  | some c =>
    unfold loadFromFile
    show (if c = "" then JValue.arr []
      else
        match parse c with
        | some v => v
        | none => JValue.arr []) = JValue.arr []
    rcases h c rfl with hc | hc
    · rw [if_pos hc]
    · by_cases he : c = ""
      · rw [if_pos he]
      · rw [if_neg he, hc]

/-- C5 witness: loading a present file whose content the JSON parser
rejects yields the empty list. -/
theorem load_recovery_witness : loadFromFile parseNone (some "x") = JValue.arr [] :=
  load_recovery parseNone (some "x") (fun _ _ => Or.inr rfl)

theorem icsFold_all_none (parseDate : JValue → Option String) :
    ∀ (l : List CleanedEvent) (acc : List IcsEvent),
      (∀ e ∈ l, renderEvent parseDate e = none) →
      l.foldl (fun acc e =>
        match renderEvent parseDate e with
        | some ev => acc ++ [ev]
        | none => acc) acc = acc := by
  intro l
  induction l with
  | nil => intro acc _; rfl
  | cons e l ih =>
    intro acc h
    simp only [List.foldl_cons, h e (List.mem_cons_self e l)]
    exact ih acc (fun x hx => h x (List.mem_cons_of_mem e hx))

/-- C6: empty-render guard — when every event of the input list fails
per-event rendering (which also covers the empty input list), the
calendar set ends up empty and `create_ics_file` returns before opening
the output file: no calendar content is written. -/
theorem empty_render_guard (parseDate : JValue → Option String)
    (events : List CleanedEvent)
    (h : ∀ e ∈ events, renderEvent parseDate e = none) :
    createIcsFile parseDate events = none := by
  unfold createIcsFile
  rw [icsFold_all_none parseDate events [] h]
  rfl

/-- C6 witness: the guard applied to a one-event list whose rendering
is rejected by the date parser. -/
theorem empty_render_guard_witness : createIcsFile dateNone [evGood] = none :=
  empty_render_guard dateNone [evGood] (by decide)

/-- C8: no-data no-op — when the fetch returns no data, `main` returns
right after the `if not raw_response_data` check: neither the store
file nor the calendar file is written, whatever was loaded. -/
theorem no_data_noop (parse : String → Option JValue)
    (parseDate : JValue → Option String) (loaded : List CleanedEvent) :
    mainRun parse parseDate loaded none =
      .ok { storeWrite := none, icsWrite := none } := rfl

/-- C7: the defensive shape check of `clean_data` evaluated on the
standard GraphQL error payload `(data: null)`: the payload is truthy
and contains the key `data`, so the check reaches
`'posts' not in raw_data['data']`, a membership test on `None`, and
raises `TypeError` instead of taking the `return []` recovery path. -/
theorem shape_check_raises_on_null_data :
    isErr (shapeBad payloadDataNull) = true ∧
    isErr (cleanData parseNone payloadDataNull) = true :=
  ⟨rfl, rfl⟩

theorem any_of_kvLookup (kvs : List (String × JValue)) (k : String)
    (v : JValue) (h : kvLookup kvs k = some v) :
    kvs.any (fun p => decide (p.1 = k)) = true := by
  unfold kvLookup at h
  cases hf : kvs.find? (fun p => decide (p.1 = k)) with
  | none => rw [hf] at h; simp at h
  | some p =>
    have hpk := List.find?_some hf
    exact List.any_eq_true.mpr ⟨p, List.mem_of_find?_eq_some hf, hpk⟩

theorem kvLookup_of_any (kvs : List (String × JValue)) (k : String)
    (h : kvs.any (fun p => decide (p.1 = k)) = true) :
    ∃ v, kvLookup kvs k = some v := by
  obtain ⟨p, hp, hpk⟩ := List.any_eq_true.mp h
  have hs : (kvs.find? (fun p => decide (p.1 = k))).isSome :=
    List.find?_isSome.mpr ⟨p, hp, hpk⟩
  cases hf : kvs.find? (fun p => decide (p.1 = k)) with
  | none => rw [hf] at hs; simp at hs
  | some q =>
    refine ⟨q.2, ?_⟩
    unfold kvLookup
    rw [hf]
    rfl

theorem kvs_ne_nil_of_lookup (kvs : List (String × JValue)) (k : String)
    (v : JValue) (h : kvLookup kvs k = some v) : kvs ≠ [] := by
  intro h0
  rw [h0] at h
  simp [kvLookup] at h

theorem processFields_total (parse : String → Option JValue) :
    ∀ (fs : List JValue), (∀ f ∈ fs, ∃ fkv, f = JValue.obj fkv) →
      ∀ acc, ∃ res, processFields parse fs acc = .ok res := by
  intro fs
  induction fs with
  | nil => intro _ acc; exact ⟨acc, rfl⟩
  | cons f fs ih =>
    intro hall acc
    obtain ⟨fkv, rfl⟩ := hall f (List.mem_cons_self f fs)
    have ih2 := ih (fun x hx => hall x (List.mem_cons_of_mem _ hx))
    unfold processFields
    simp only [bind, Except.bind, pyGet]
    by_cases hv : (kvLookup fkv "value").getD JValue.null = JValue.null
    · rw [if_pos hv]; exact ih2 acc
    · rw [if_neg hv]
      by_cases hk : (kvLookup fkv "key").getD JValue.null =
          JValue.str "start_date"
      · rw [if_pos hk]; exact ih2 _
      · rw [if_neg hk]
        by_cases he : (kvLookup fkv "key").getD JValue.null =
            JValue.str "end_date"
        · rw [if_pos he]; exact ih2 _
        · rw [if_neg he]; exact ih2 acc

theorem processPost_total (parse : String → Option JValue) (post : JValue)
    (hok : postOk post = true) : ∃ r, processPost parse post = .ok r := by
  cases post with
  | null => simp [postOk] at hok
  | bool b => simp [postOk] at hok
  | num n => simp [postOk] at hok
  | str s => simp [postOk] at hok
  | arr xs => simp [postOk] at hok
  | obj kvs =>
    unfold postOk at hok
    rw [Bool.and_eq_true, Bool.and_eq_true] at hok
    obtain ⟨⟨htitle, hdesc⟩, hfields⟩ := hok
    unfold processPost
    simp only [bind, Except.bind, pyGet, pyContains, pyIndex]
    have htl : ∃ ts, pyAsString ((kvLookup kvs "title").getD
        (JValue.str "No Title")) = .ok ts := by
      unfold strOrAbsent at htitle
      cases hkt : kvLookup kvs "title" with
      | none => exact ⟨"No Title", by simp [pyAsString]⟩
      | some tv =>
        rw [hkt] at htitle
        cases tv <;> simp_all [pyAsString]
    have hds : ∃ ds, pyAsString ((kvLookup kvs "description").getD
        (JValue.str "")) = .ok ds := by
      unfold strOrAbsent at hdesc
      cases hkd : kvLookup kvs "description" with
      | none => exact ⟨"", by simp [pyAsString]⟩
      | some dv =>
        rw [hkd] at hdesc
        cases dv <;> simp_all [pyAsString]
    obtain ⟨ts, hts⟩ := htl
    obtain ⟨ds, hdss⟩ := hds
    simp only [hts, hdss]
    by_cases hcf : kvs.any (fun p => decide (p.1 = "fields")) = true
    · rw [if_pos hcf]
      obtain ⟨fv, hfv⟩ := kvLookup_of_any kvs "fields" hcf
      rw [hfv] at hfields
      have hfok : fieldsOk fv = true := hfields
      unfold fieldsOk at hfok
      simp only [hfv]
      by_cases htr : pyTruthy fv = true
      · rw [if_pos htr]
        rw [htr] at hfok
        simp only [Bool.not_true, Bool.false_or] at hfok
        cases fv with
        | null => simp [pyTruthy] at htr
        | bool b2 => exact Bool.noConfusion (show false = true from hfok)
        | num n2 => exact Bool.noConfusion (show false = true from hfok)
        | str s2 => exact Bool.noConfusion (show false = true from hfok)
        | obj kvs2 => exact Bool.noConfusion (show false = true from hfok)
        | arr fs =>
          simp only [pyIter]
          have hall : fs.all isObjB = true := hfok
          have hobj : ∀ f ∈ fs, ∃ fkv, f = JValue.obj fkv := by
            intro f hf
            have hft : isObjB f = true := List.all_eq_true.mp hall f hf
            cases f with
            | obj fkv => exact ⟨fkv, rfl⟩
            | null => exact Bool.noConfusion (show false = true from hft)
            | bool b3 => exact Bool.noConfusion (show false = true from hft)
            | num n3 => exact Bool.noConfusion (show false = true from hft)
            | str s3 => exact Bool.noConfusion (show false = true from hft)
            | arr a3 => exact Bool.noConfusion (show false = true from hft)
          obtain ⟨slots, hslots⟩ :=
            processFields_total parse fs hobj (JValue.null, JValue.null)
          simp only [hslots]
          by_cases hsb : pyTruthy slots.1 = true
          · exact ⟨some _, by rw [if_pos hsb]⟩
          · exact ⟨none, by rw [if_neg hsb]⟩
      · rw [if_neg htr]
        exact ⟨none, by rw [if_neg (by simp [pyTruthy])]⟩
    · rw [if_neg hcf]
      exact ⟨none, by rw [if_neg (by simp [pyTruthy])]⟩

theorem processNodes_total (parse : String → Option JValue) :
    ∀ (nodes : List JValue), (∀ p ∈ nodes, postOk p = true) →
      ∀ acc, ∃ res, processNodes parse nodes acc = .ok res := by
  intro nodes
  induction nodes with
  | nil => intro _ acc; exact ⟨acc, rfl⟩
  | cons post rest ih =>
    intro hall acc
    obtain ⟨r, hr⟩ := processPost_total parse post
      (hall post (List.mem_cons_self post rest))
    have ih2 := ih (fun x hx => hall x (List.mem_cons_of_mem _ hx))
    unfold processNodes
    simp only [bind, Except.bind, hr]
    cases r with
    | some e => exact ih2 (acc ++ [e])
    | none => exact ih2 acc

/-- C9 counterexample: `payloadNullTitle` passes the top-level shape
check (the guard evaluates to false), yet `clean_data` raises — the
post's `title` is present but `null`, so `post.get('title', 'No Title')`
returns `None` and `.replace` on it raises `AttributeError`. -/
theorem normalize_totality_counterexample :
    shapeBad payloadNullTitle = .ok false ∧
    isErr (cleanData parseNone payloadNullTitle) = true :=
  ⟨rfl, rfl⟩

/-- C9 amended: on a payload whose `data`, `posts` and `nodes` members
are objects ending in an array of post records, `clean_data` returns a
list without raising provided each post record is an object whose
`title` and `description` are strings when present and whose `fields`
member, when present and truthy, is an array of objects.  (Absent
fields of any kind are tolerated, as are field values that fail JSON
decoding; present-but-null `title` or `description` values are not —
they raise, as the counterexample shows.) -/
theorem normalize_totality (parse : String → Option JValue)
    (kvs dkvs pkvs : List (String × JValue)) (posts : List JValue)
    (hdata : kvLookup kvs "data" = some (JValue.obj dkvs))
    (hposts : kvLookup dkvs "posts" = some (JValue.obj pkvs))
    (hnodes : kvLookup pkvs "nodes" = some (JValue.arr posts))
    (hok : ∀ p ∈ posts, postOk p = true) :
    ∃ l, cleanData parse (JValue.obj kvs) = .ok l := by
  have hne : kvs ≠ [] := kvs_ne_nil_of_lookup kvs "data" _ hdata
  have htru : pyTruthy (JValue.obj kvs) = true := by simp [pyTruthy, hne]
  have hc1 : pyContains (JValue.obj kvs) "data" = .ok true := by
    simp only [pyContains]
    rw [any_of_kvLookup kvs "data" _ hdata]
  have hidx1 : pyIndex (JValue.obj kvs) "data" = .ok (JValue.obj dkvs) := by
    simp only [pyIndex, hdata]
  have hc2 : pyContains (JValue.obj dkvs) "posts" = .ok true := by
    simp only [pyContains]
    rw [any_of_kvLookup dkvs "posts" _ hposts]
  have hidx2 : pyIndex (JValue.obj dkvs) "posts" = .ok (JValue.obj pkvs) := by
    simp only [pyIndex, hposts]
  have hc3 : pyContains (JValue.obj pkvs) "nodes" = .ok true := by
    simp only [pyContains]
    rw [any_of_kvLookup pkvs "nodes" _ hnodes]
  have hidx3 : pyIndex (JValue.obj pkvs) "nodes" = .ok (JValue.arr posts) := by
    simp only [pyIndex, hnodes]
  have hsb : shapeBad (JValue.obj kvs) = .ok false := by
    unfold shapeBad
    simp only [bind, Except.bind, htru, hc1, hidx1, hc2, hidx2, hc3]
    simp
  obtain ⟨res, hres⟩ := processNodes_total parse posts hok []
  refine ⟨res, ?_⟩
  unfold cleanData
  simp only [bind, Except.bind, hsb, hidx1, hidx2, hidx3, pyIter]
  exact hres

/-- C9 witness: the amended totality theorem applied to the end-to-end
demo payload. -/
theorem normalize_totality_witness :
    ∃ l, cleanData parseNone
      (JValue.obj [("data", JValue.obj [("posts", JValue.obj [("nodes",
        JValue.arr [demoPost])])])]) = .ok l :=
  normalize_totality parseNone _ _ _ [demoPost] rfl rfl rfl (by decide)
